import Mathlib

/-!
Verification of the `naive_text` extraction engine against its specification.

The Rust sources are shallowly embedded: the static regime/era catalogue
(`src/regime.rs`), the Chinese numeral and month parsers, the time-scope
construction and time-attribution algorithm (`src/event.rs`), the queryable
time index, and the confidence split of `run_extract` (`src/main.rs`) are
translated into executable Lean definitions, and the specified properties
are proved or refuted about them.
-/

namespace NaiveText

-- ── Book (src/types.rs) ──────────────────────────────────────────────

/-- The six source works, from `types.rs` `enum Book`. -/
inductive Book where
  | JinShu
  | SongShu
  | NanQiShu
  | LiangShu
  | ChenShu
  | WeiShu
deriving DecidableEq, Repr

-- ── Regime (src/regime.rs) ───────────────────────────────────────────

/-- Political regimes of the Six Dynasties period, from `regime.rs` `enum Regime`. -/
inductive Regime where
  | WesternJin
  | EasternJin
  | LiuSong
  | SouthernQi
  | Liang
  | Chen
  | NorthernWei
  | HanZhao
  | LaterZhao
  | ChengHan
  | FormerLiang
  | FormerYan
  | FormerQin
  | LaterQin
  | LaterYan
  | WesternQin
  | LaterLiang
  | SouthernLiang
  | SouthernYan
  | WesternLiang
  | NorthernLiang
  | XiaState
  | NorthernYan
deriving DecidableEq, Repr

/-- `Regime::as_chinese` from `regime.rs`. -/
def Regime.as_chinese : Regime → String
  | .WesternJin => "西晉"
  | .EasternJin => "東晉"
  | .LiuSong => "劉宋"
  | .SouthernQi => "南齊"
  | .Liang => "梁"
  | .Chen => "陳"
  | .NorthernWei => "北魏"
  | .HanZhao => "漢趙"
  | .LaterZhao => "後趙"
  | .ChengHan => "成漢"
  | .FormerLiang => "前涼"
  | .FormerYan => "前燕"
  | .FormerQin => "前秦"
  | .LaterQin => "後秦"
  | .LaterYan => "後燕"
  | .WesternQin => "西秦"
  | .LaterLiang => "後涼"
  | .SouthernLiang => "南涼"
  | .SouthernYan => "南燕"
  | .WesternLiang => "西涼"
  | .NorthernLiang => "北涼"
  | .XiaState => "夏"
  | .NorthernYan => "北燕"

-- ── Era catalogue (src/regime.rs ERA_NAMES) ─────────────────────────

/-- One era-name record of the static catalogue (`regime.rs` `struct EraEntry`).
AD years fit far below `2 ^ 16`, so plain `Nat` models the Rust `u16` fields. -/
structure EraEntry where
  name : String
  regime : Regime
  start_ad : Nat
  end_ad : Nat
deriving DecidableEq, Repr

/-- The catalogue is split into chunks only because very long list literals
elaborate slowly; `ERA_NAMES` below is their concatenation, in source order. -/
def era_chunk_0 : List EraEntry := [
  ⟨"泰始", .WesternJin, 265, 274⟩,
  ⟨"咸寧", .WesternJin, 275, 280⟩,
  ⟨"太康", .WesternJin, 280, 289⟩,
  ⟨"太熙", .WesternJin, 290, 290⟩,
  ⟨"永熙", .WesternJin, 290, 290⟩,
  ⟨"永平", .WesternJin, 291, 291⟩,
  ⟨"元康", .WesternJin, 291, 299⟩,
  ⟨"永康", .WesternJin, 300, 301⟩,
  ⟨"永寧", .WesternJin, 301, 302⟩,
  ⟨"太安", .WesternJin, 302, 304⟩,
  ⟨"永安", .WesternJin, 304, 304⟩,
  ⟨"建武", .WesternJin, 304, 304⟩,
  ⟨"永興", .WesternJin, 304, 306⟩,
  ⟨"光熙", .WesternJin, 306, 306⟩,
  ⟨"永嘉", .WesternJin, 307, 313⟩,
  ⟨"建興", .WesternJin, 313, 317⟩,
  ⟨"建武", .EasternJin, 317, 318⟩,
  ⟨"大興", .EasternJin, 318, 321⟩,
  ⟨"永昌", .EasternJin, 322, 323⟩,
  ⟨"太寧", .EasternJin, 323, 326⟩,
  ⟨"咸和", .EasternJin, 326, 334⟩,
  ⟨"咸康", .EasternJin, 335, 342⟩,
  ⟨"建元", .EasternJin, 343, 344⟩,
  ⟨"永和", .EasternJin, 345, 356⟩,
  ⟨"升平", .EasternJin, 357, 361⟩,
  ⟨"隆和", .EasternJin, 362, 363⟩,
  ⟨"興寧", .EasternJin, 363, 365⟩,
  ⟨"太和", .EasternJin, 366, 371⟩,
  ⟨"咸安", .EasternJin, 371, 372⟩,
  ⟨"寧康", .EasternJin, 373, 375⟩,
  ⟨"太元", .EasternJin, 376, 396⟩,
  ⟨"隆安", .EasternJin, 397, 401⟩,
  ⟨"元興", .EasternJin, 402, 404⟩,
  ⟨"義熙", .EasternJin, 405, 418⟩
]

def era_chunk_1 : List EraEntry := [
  ⟨"永初", .LiuSong, 420, 422⟩,
  ⟨"景平", .LiuSong, 423, 424⟩,
  ⟨"元嘉", .LiuSong, 424, 453⟩,
  ⟨"孝建", .LiuSong, 454, 456⟩,
  ⟨"大明", .LiuSong, 457, 464⟩,
  ⟨"永光", .LiuSong, 465, 465⟩,
  ⟨"景和", .LiuSong, 465, 465⟩,
  ⟨"泰始", .LiuSong, 465, 471⟩,
  ⟨"泰豫", .LiuSong, 472, 472⟩,
  ⟨"元徽", .LiuSong, 473, 477⟩,
  ⟨"昇明", .LiuSong, 477, 479⟩,
  ⟨"建元", .SouthernQi, 479, 482⟩,
  ⟨"永明", .SouthernQi, 483, 493⟩,
  ⟨"隆昌", .SouthernQi, 494, 494⟩,
  ⟨"延興", .SouthernQi, 494, 494⟩,
  ⟨"建武", .SouthernQi, 494, 498⟩,
  ⟨"永泰", .SouthernQi, 498, 498⟩,
  ⟨"永元", .SouthernQi, 499, 501⟩,
  ⟨"中興", .SouthernQi, 501, 502⟩,
  ⟨"天監", .Liang, 502, 519⟩,
  ⟨"普通", .Liang, 520, 527⟩,
  ⟨"大通", .Liang, 527, 529⟩,
  ⟨"中大通", .Liang, 529, 534⟩,
  ⟨"大同", .Liang, 535, 546⟩,
  ⟨"中大同", .Liang, 546, 547⟩,
  ⟨"太清", .Liang, 547, 549⟩,
  ⟨"大寶", .Liang, 550, 551⟩,
  ⟨"承聖", .Liang, 552, 555⟩,
  ⟨"天成", .Liang, 555, 555⟩,
  ⟨"永定", .Chen, 557, 559⟩,
  ⟨"天嘉", .Chen, 560, 566⟩,
  ⟨"天康", .Chen, 566, 566⟩,
  ⟨"光大", .Chen, 567, 568⟩,
  ⟨"太建", .Chen, 569, 582⟩
]

def era_chunk_2 : List EraEntry := [
  ⟨"至德", .Chen, 583, 586⟩,
  ⟨"禎明", .Chen, 587, 589⟩,
  ⟨"登國", .NorthernWei, 386, 396⟩,
  ⟨"皇始", .NorthernWei, 396, 398⟩,
  ⟨"天興", .NorthernWei, 398, 404⟩,
  ⟨"天賜", .NorthernWei, 404, 409⟩,
  ⟨"永興", .NorthernWei, 409, 413⟩,
  ⟨"神瑞", .NorthernWei, 414, 416⟩,
  ⟨"泰常", .NorthernWei, 416, 423⟩,
  ⟨"始光", .NorthernWei, 424, 428⟩,
  ⟨"神麚", .NorthernWei, 428, 431⟩,
  ⟨"延和", .NorthernWei, 432, 435⟩,
  ⟨"太延", .NorthernWei, 435, 440⟩,
  ⟨"太平真君", .NorthernWei, 440, 451⟩,
  ⟨"正平", .NorthernWei, 451, 452⟩,
  ⟨"興安", .NorthernWei, 452, 454⟩,
  ⟨"興光", .NorthernWei, 454, 455⟩,
  ⟨"太安", .NorthernWei, 455, 459⟩,
  ⟨"和平", .NorthernWei, 460, 465⟩,
  ⟨"天安", .NorthernWei, 466, 467⟩,
  ⟨"皇興", .NorthernWei, 467, 471⟩,
  ⟨"延興", .NorthernWei, 471, 476⟩,
  ⟨"承明", .NorthernWei, 476, 476⟩,
  ⟨"太和", .NorthernWei, 477, 499⟩,
  ⟨"景明", .NorthernWei, 500, 504⟩,
  ⟨"正始", .NorthernWei, 504, 508⟩,
  ⟨"永平", .NorthernWei, 508, 512⟩,
  ⟨"延昌", .NorthernWei, 512, 515⟩,
  ⟨"熙平", .NorthernWei, 516, 518⟩,
  ⟨"神龜", .NorthernWei, 518, 520⟩,
  ⟨"正光", .NorthernWei, 520, 525⟩,
  ⟨"孝昌", .NorthernWei, 525, 528⟩,
  ⟨"武泰", .NorthernWei, 528, 528⟩,
  ⟨"建義", .NorthernWei, 528, 528⟩
]

def era_chunk_3 : List EraEntry := [
  ⟨"永安", .NorthernWei, 528, 530⟩,
  ⟨"建明", .NorthernWei, 530, 531⟩,
  ⟨"普泰", .NorthernWei, 531, 531⟩,
  ⟨"中興", .NorthernWei, 531, 532⟩,
  ⟨"太昌", .NorthernWei, 532, 532⟩,
  ⟨"永興", .NorthernWei, 409, 413⟩,
  ⟨"永熙", .NorthernWei, 532, 534⟩,
  ⟨"元熙", .HanZhao, 304, 308⟩,
  ⟨"河瑞", .HanZhao, 309, 310⟩,
  ⟨"光興", .HanZhao, 310, 311⟩,
  ⟨"嘉平", .HanZhao, 311, 315⟩,
  ⟨"麟嘉", .HanZhao, 316, 318⟩,
  ⟨"光初", .HanZhao, 318, 329⟩,
  ⟨"建平", .LaterZhao, 330, 333⟩,
  ⟨"建武", .LaterZhao, 335, 348⟩,
  ⟨"太寧", .LaterZhao, 349, 349⟩,
  ⟨"青龍", .LaterZhao, 350, 350⟩,
  ⟨"太武", .ChengHan, 303, 304⟩,
  ⟨"晏平", .ChengHan, 306, 310⟩,
  ⟨"玉衡", .ChengHan, 311, 334⟩,
  ⟨"漢興", .ChengHan, 338, 343⟩,
  ⟨"太初", .FormerLiang, 314, 320⟩,
  ⟨"建興", .FormerLiang, 317, 320⟩,
  ⟨"元璽", .FormerYan, 352, 357⟩,
  ⟨"光壽", .FormerYan, 357, 360⟩,
  ⟨"建熙", .FormerYan, 360, 370⟩,
  ⟨"皇始", .FormerQin, 351, 355⟩,
  ⟨"壽光", .FormerQin, 355, 357⟩,
  ⟨"甘露", .FormerQin, 359, 364⟩,
  ⟨"建元", .FormerQin, 365, 385⟩,
  ⟨"太初", .FormerQin, 386, 394⟩,
  ⟨"建初", .LaterQin, 386, 394⟩,
  ⟨"皇初", .LaterQin, 394, 399⟩,
  ⟨"弘始", .LaterQin, 399, 416⟩
]

def era_chunk_4 : List EraEntry := [
  ⟨"建興", .LaterYan, 386, 396⟩,
  ⟨"長樂", .LaterYan, 399, 401⟩,
  ⟨"光始", .LaterYan, 401, 406⟩,
  ⟨"建始", .LaterYan, 407, 407⟩,
  ⟨"建義", .WesternQin, 385, 388⟩,
  ⟨"太初", .WesternQin, 388, 400⟩,
  ⟨"更始", .WesternQin, 409, 412⟩,
  ⟨"建弘", .WesternQin, 420, 428⟩,
  ⟨"太安", .LaterLiang, 386, 389⟩,
  ⟨"麟嘉", .LaterLiang, 389, 396⟩,
  ⟨"龍飛", .LaterLiang, 396, 399⟩,
  ⟨"太初", .SouthernLiang, 397, 399⟩,
  ⟨"建和", .SouthernLiang, 400, 402⟩,
  ⟨"弘昌", .SouthernLiang, 402, 404⟩,
  ⟨"嘉平", .SouthernLiang, 408, 414⟩,
  ⟨"建平", .SouthernYan, 400, 405⟩,
  ⟨"太上", .SouthernYan, 405, 410⟩,
  ⟨"庚子", .WesternLiang, 400, 404⟩,
  ⟨"建初", .WesternLiang, 405, 417⟩,
  ⟨"神璽", .NorthernLiang, 397, 399⟩,
  ⟨"天璽", .NorthernLiang, 399, 401⟩,
  ⟨"永安", .NorthernLiang, 401, 412⟩,
  ⟨"玄始", .NorthernLiang, 412, 427⟩,
  ⟨"承平", .NorthernLiang, 443, 460⟩,
  ⟨"龍昇", .XiaState, 407, 413⟩,
  ⟨"鳳翔", .XiaState, 413, 418⟩,
  ⟨"昌武", .XiaState, 418, 419⟩,
  ⟨"真興", .XiaState, 419, 425⟩,
  ⟨"承光", .XiaState, 425, 428⟩,
  ⟨"正始", .NorthernYan, 407, 409⟩,
  ⟨"太平", .NorthernYan, 409, 430⟩
]

/-- The full static catalogue `ERA_NAMES` from `regime.rs`, in source order. -/
def ERA_NAMES : List EraEntry :=
  era_chunk_0 ++ era_chunk_1 ++ era_chunk_2 ++ era_chunk_3 ++ era_chunk_4

-- ── Disambiguation (src/regime.rs) ───────────────────────────────────

/-- `default_regime` from `regime.rs`: default regime for each Book. -/
def default_regime : Book → Regime
  | .JinShu => .EasternJin
  | .SongShu => .LiuSong
  | .NanQiShu => .SouthernQi
  | .LiangShu => .Liang
  | .ChenShu => .Chen
  | .WeiShu => .NorthernWei

/-- `resolve_era` from `regime.rs`: first try an exact match with the book's
default regime, then fall back to the first catalogue entry with that name. -/
def resolve_era (era_name : String) (book : Book) : Option Regime :=
  let dflt := default_regime book
  match ERA_NAMES.find? (fun e => e.name == era_name && e.regime == dflt) with
  | some e => some e.regime
  | none =>
    match ERA_NAMES.find? (fun e => e.name == era_name) with
    | some e => some e.regime
    | none => none

/-- The intermediate era-name list built by `build_era_regex` in `regime.rs`:
all catalogue names, stably sorted by character length descending, then
`Vec::dedup` (which removes only *consecutive* duplicates). -/
def dedup_consecutive : List String → List String
  | [] => []
  | [a] => [a]
  | a :: b :: rest =>
    if a == b then dedup_consecutive (b :: rest)
    else a :: dedup_consecutive (b :: rest)

/-- The sorted-then-deduped name list inside `build_era_regex` (`regime.rs`).
Rust's `sort_by_key(Reverse(char count))` is a stable sort under the total
preorder "character length descending"; a stable sort's output is uniquely
determined by that preorder, and `List.insertionSort` (which inserts each
earlier element before later tied ones) is stable, so it produces exactly
the list the Rust code sorts. -/
def build_era_regex_names : List String :=
  dedup_consecutive
    ((ERA_NAMES.map (fun e => e.name)).insertionSort
      (fun a b => b.length ≤ a.length))

/-- Executable check that adjacent elements have non-increasing character
length (the ordering `build_era_regex` promises). -/
def sorted_desc_by_len : List String → Bool
  | [] => true
  | [_] => true
  | a :: b :: rest => (decide (b.length ≤ a.length)) && sorted_desc_by_len (b :: rest)

/-- `build_era_regex` from `regime.rs`: the final alternation string. -/
def build_era_regex : String :=
  "(?:" ++ String.intercalate "|" build_era_regex_names ++ ")"

-- ── exact_ad_year (src/event.rs) ─────────────────────────────────────

/-- Checked `u16` subtraction: Rust's `a - b` on unsigned integers panics on
underflow, modelled as `none`. -/
def checked_sub_u16 (a b : Nat) : Option Nat :=
  if b ≤ a then some (a - b) else none

/-- `exact_ad_year` from `event.rs`, with the `u16` subtraction `year - 1`
made explicit: `.error ()` models the underflow panic for `year = 0`.
The addition `start_ad + (year - 1)` stays below `2 ^ 16` (start_ad ≤ 587,
year ≤ 255), so plain `Nat` addition is exact. -/
def exact_ad_year (regime_chinese era_name : String) (year : Nat) :
    Except Unit (Option Nat) :=
  match ERA_NAMES.find?
      (fun e => e.regime.as_chinese == regime_chinese && e.name == era_name) with
  | none => .ok none
  | some entry =>
    match checked_sub_u16 year 1 with
    | none => .error ()
    | some ym1 => .ok (some (entry.start_ad + ym1))

-- ── Chinese numeral parsing (src/event.rs) ───────────────────────────

/-- `cn_digit` from `event.rs`: single Chinese digit character, value 1–9. -/
def cn_digit (c : Char) : Option Nat :=
  match c with
  | '一' => some 1
  | '二' => some 2
  | '三' => some 3
  | '四' => some 4
  | '五' => some 5
  | '六' => some 6
  | '七' => some 7
  | '八' => some 8
  | '九' => some 9
  | _ => none

/-- The `match chars.as_slice()` block of `parse_cn_number` (`event.rs`).
Match arms appear in source order; like the Rust `?` operator, a failing
`cn_digit` inside a committed arm yields `none` for the whole call rather
than falling through. -/
def parse_cn_number_slice : List Char → Option Nat
  | ['十'] => some 10
  | ['十', d] => (cn_digit d).map (fun v => 10 + v)
  | [c] => cn_digit c
  | [d, '十'] => (cn_digit d).map (fun v => v * 10)
  | [d1, '十', d2] =>
    (cn_digit d1).bind (fun v1 => (cn_digit d2).map (fun v2 => v1 * 10 + v2))
  | _ => none

/-- `parse_cn_number` from `event.rs`: the 元 special case, then the match
on the collected character slice. -/
def parse_cn_number (s : String) : Option Nat :=
  if s = "元" then some 1
  else parse_cn_number_slice s.toList

/-- `parse_cn_month` from `event.rs`: plain months 正/一–十二/臘 and
閏-prefixed months; the stripped base is re-parsed via `parse_cn_number`
after mapping 正 to 一. Rust's `strip_prefix('閏')` is rendered on the
character list (dropping a leading 閏 when present). -/
def parse_cn_month (s : String) : Option Nat :=
  if s = "正" ∨ s = "一" then some 1
  else if s = "臘" then some 12
  else
    let base :=
      match s.toList with
      | '閏' :: rest => String.mk rest
      | _ => s
    let base := if base = "正" then "一" else base
    match parse_cn_number base with
    | none => none
    | some m => if 1 ≤ m ∧ m ≤ 12 then some m else none

-- ── Time model (src/event.rs) ────────────────────────────────────────

/-- `TimeRef` from `event.rs`: a time reference extracted from text. -/
structure TimeRef where
  era : String
  regime : String
  year : Nat
  month : Option Nat
  day_ganzhi : Option String
  raw : String
  byte_offset : Nat
deriving DecidableEq, Repr

/-- `TextSpan` from `event.rs`: a byte range within a source file. -/
structure TextSpan where
  file : String
  byte_start : Nat
  byte_end : Nat
deriving DecidableEq, Repr

/-- `TimeScope` from `event.rs`: the region of text governed by one time
reference. -/
structure TimeScope where
  time : TimeRef
  span : TextSpan
deriving DecidableEq, Repr

/-- `TimeIndex` from `event.rs`: corpus-wide index of time scopes. -/
structure TimeIndex where
  scopes : List TimeScope
deriving DecidableEq, Repr

/-- `TimeIndex::query` from `event.rs`: scopes matching an era name and an
optional year (`year.is_none_or(|y| s.time.year == y)`). -/
def TimeIndex.query (idx : TimeIndex) (era : String) (year : Option Nat) :
    List TimeScope :=
  idx.scopes.filter (fun s =>
    s.time.era == era &&
      (match year with
       | none => true
       | some y => s.time.year == y))

/-- `TimeIndex::query_regime` from `event.rs`: scopes matching a regime name. -/
def TimeIndex.query_regime (idx : TimeIndex) (regime : String) : List TimeScope :=
  idx.scopes.filter (fun s => s.time.regime == regime)

-- ── Time attribution (src/event.rs) ──────────────────────────────────

/-- `EventScanner::find_time_context` from `event.rs`: the last time
reference in list order whose offset is strictly before the event offset
(`times.iter().rev().find(|(off, _)| *off < event_offset)`). -/
def find_time_context (times : List (Nat × TimeRef)) (event_offset : Nat) :
    Option TimeRef :=
  (times.reverse.find? (fun p => decide (p.1 < event_offset))).map (fun p => p.2)

/-- `EventScanner::build_time_scopes` from `event.rs`: scope `i` runs from
`times[i].0` to `times[i+1].0`, the last one to `content_len`. The Rust
indexed loop is rendered as structural recursion producing the same list. -/
def build_time_scopes (times : List (Nat × TimeRef)) (content_len : Nat)
    (source_file : String) : List TimeScope :=
  match times with
  | [] => []
  | (start, time) :: rest =>
    let scope_end :=
      match rest with
      | [] => content_len
      | (next, _) :: _ => next
    ⟨time, ⟨source_file, start, scope_end⟩⟩ ::
      build_time_scopes rest content_len source_file

-- ── Event model (src/event.rs) ───────────────────────────────────────

/-- `PlaceRef` from `event.rs`. -/
structure PlaceRef where
  name : String
  is_qiao : Bool
  role_suffix : Option String
deriving DecidableEq, Repr

/-- `EventKind` from `event.rs`. -/
inductive EventKind where
  | Appointment (person new_title : String) (place : Option PlaceRef)
  | Promotion (person verb new_title : String) (place : Option PlaceRef)
  | Accession (person verb : String)
  | Battle (person verb target : String) (target_place : Option PlaceRef)
  | Death (person verb : String)
deriving DecidableEq, Repr

/-- `Event` from `event.rs`. -/
structure Event where
  kind : EventKind
  time : Option TimeRef
  source_file : String
  byte_offset : Nat
  context : String
  locations : List PlaceRef
deriving DecidableEq, Repr

/-- `Event::person_name` from `event.rs`. -/
def Event.person_name (e : Event) : String :=
  match e.kind with
  | .Appointment person _ _ => person
  | .Promotion person _ _ _ => person
  | .Accession person _ => person
  | .Battle person _ _ _ => person
  | .Death person _ => person

/-- `Event::all_location_names` from `event.rs`: context-window locations
first, then the structured place field when present. -/
def Event.all_location_names (e : Event) : List String :=
  e.locations.map (fun l => l.name) ++
    (match e.kind with
     | .Appointment _ _ (some p) => [p.name]
     | .Promotion _ _ _ (some p) => [p.name]
     | .Battle _ _ _ (some p) => [p.name]
     | _ => [])

-- ── Confidence split (src/main.rs run_extract) ───────────────────────

/-- The `person_freq` map of `run_extract` (`main.rs`): each event adds one
occurrence of its person name, so the count for a name is the number of
events carrying it (0 for absent keys, matching `unwrap_or(0)`). -/
def person_freq (events : List Event) (name : String) : Nat :=
  events.countP (fun e => e.person_name == name)

/-- The `location_freq` map of `run_extract` (`main.rs`): one occurrence per
element of `all_location_names` per event. -/
def location_freq (events : List Event) (name : String) : Nat :=
  (events.map (fun e => e.all_location_names.countP (fun n => n == name))).sum

/-- The per-event filtering applied to a high-confidence event in
`run_extract` (`main.rs`): context locations with frequency `< 2` are
dropped, and a structured place field with frequency `< 2` is cleared. -/
def filter_event_locations (lfreq : String → Nat) (e : Event) : Event :=
  let locations := e.locations.filter (fun l => decide (2 ≤ lfreq l.name))
  let kind :=
    match e.kind with
    | .Appointment person title (some p) =>
      if lfreq p.name < 2 then .Appointment person title none
      else .Appointment person title (some p)
    | .Promotion person verb title (some p) =>
      if lfreq p.name < 2 then .Promotion person verb title none
      else .Promotion person verb title (some p)
    | .Battle person verb target (some p) =>
      if lfreq p.name < 2 then .Battle person verb target none
      else .Battle person verb target (some p)
    | k => k
  { e with kind := kind, locations := locations }

/-- The event-splitting loop of `run_extract` (`main.rs`), abstracted over
the two frequency functions: events whose person count is `≥ 2` go,
location-filtered, into the first (high-confidence) list; all others go
unmodified into the second (unstructured) list, in order. -/
def split_loop (pfreq lfreq : String → Nat) : List Event → List Event × List Event
  | [] => ([], [])
  | e :: rest =>
    let (hs, us) := split_loop pfreq lfreq rest
    if 2 ≤ pfreq e.person_name then (filter_event_locations lfreq e :: hs, us)
    else (hs, e :: us)

/-- The high-confidence / unstructured split of `run_extract` (`main.rs`),
with both frequency maps computed from the full extracted event list. -/
def split_events (events : List Event) : List Event × List Event :=
  split_loop (person_freq events) (location_freq events) events

-- ── Spec-side comparison definitions ─────────────────────────────────

/-- The numeral grammar exactly as claim C5 words it, for comparison with
`parse_cn_number`: 元, single digits 一–九, 十, 十D for 11–19, D十 for
20–90 and D十D for 21–99 — so the tens digit D ranges over 二–九 only. -/
def claimed_cn_number_grammar (s : String) : Option Nat :=
  if s = "元" then some 1
  else
    match s.toList with
    | ['十'] => some 10
    | ['十', d] => (cn_digit d).map (fun v => 10 + v)
    | [c] => cn_digit c
    | [d, '十'] =>
      (cn_digit d).bind (fun v => if 2 ≤ v then some (v * 10) else none)
    | [d1, '十', d2] =>
      (cn_digit d1).bind (fun v1 =>
        if 2 ≤ v1 then (cn_digit d2).map (fun v2 => v1 * 10 + v2) else none)
    | _ => none

/-- The month number of a base month name as claim C6 understands it:
正 and 一 denote 1, 臘 denotes 12, and a numeral in 1–12 denotes itself. -/
def claimed_month_number (b : String) : Option Nat :=
  if b = "正" ∨ b = "一" then some 1
  else if b = "臘" then some 12
  else
    match parse_cn_number b with
    | some m => if 1 ≤ m ∧ m ≤ 12 then some m else none
    | none => none

/-- The month function exactly as claim C6 words it, for comparison with
`parse_cn_month`: 正 and 一 map to 1, 臘 to 12; an input with the 閏 prefix
is stripped and the base month's number returned; every other input is
`none`. -/
def claimed_parse_cn_month (s : String) : Option Nat :=
  if s = "正" ∨ s = "一" then some 1
  else if s = "臘" then some 12
  else
    match s.toList with
    | '閏' :: rest => claimed_month_number (String.mk rest)
    | _ => none

/-- The numeral grammar `parse_cn_number` actually accepts, as a relation on
the parsed character list: all digit positions range over 一–九, so 一十
(= 10) and 一十D (= 10 + D) are included alongside the claimed shapes. -/
inductive CnNumeral : List Char → Nat → Prop where
  | yuan : CnNumeral ['元'] 1
  | ten : CnNumeral ['十'] 10
  | digit (c : Char) (v : Nat) : cn_digit c = some v → CnNumeral [c] v
  | teen (d : Char) (v : Nat) : cn_digit d = some v → CnNumeral ['十', d] (10 + v)
  | tens (d : Char) (v : Nat) : cn_digit d = some v → CnNumeral [d, '十'] (v * 10)
  | compound (d1 d2 : Char) (v1 v2 : Nat) :
      cn_digit d1 = some v1 → cn_digit d2 = some v2 →
      CnNumeral [d1, '十', d2] (v1 * 10 + v2)

/-- The structured place field of an event's kind, as `run_extract` in
`main.rs` matches it when clearing low-frequency places. -/
def Event.structured_place (e : Event) : Option PlaceRef :=
  match e.kind with
  | .Appointment _ _ p => p
  | .Promotion _ _ _ p => p
  | .Battle _ _ _ p => p
  | _ => none

/-- Membership in the union, over all catalogue entries of regime `r` and
all years within each entry's span, of the result sets of
`query(era_name, Some(y))` — the right-hand side of claim C9. -/
def regime_union_mem (idx : TimeIndex) (r : Regime) (s : TimeScope) : Prop :=
  ∃ en ∈ ERA_NAMES, en.regime = r ∧
    ∃ y, 1 ≤ y ∧ y ≤ en.end_ad - en.start_ad + 1 ∧
      s ∈ idx.query en.name (some y)

-- ── Concrete fixtures used by witnesses and counterexamples ──────────

/-- A concrete `TimeRef` with the given era, regime, year and offset. -/
def mk_time (era regime : String) (year offset : Nat) : TimeRef :=
  ⟨era, regime, year, none, none, era, offset⟩

/-- Fixture: a death event for the confidence-split theorems. -/
def mk_death_event (person file : String) (offset : Nat)
    (locations : List PlaceRef) : Event :=
  ⟨.Death person "卒", none, file, offset, "", locations⟩

/-- Fixture corpus for the confidence-split witness: the same person in two
events, the same place in two events. -/
def sample_events : List Event :=
  [mk_death_event "王進" "a.txt" 10 [⟨"荊州", false, some "刺史"⟩],
   mk_death_event "王進" "b.txt" 20 [⟨"荊州", false, some "刺史"⟩],
   mk_death_event "趙一" "c.txt" 30 [⟨"郢州", false, none⟩]]

/-- Fixture index for the regime-query counterexample: one scope whose era
name 太和 belongs to the 北魏 catalogue as well, but whose resolved regime
is 東晉. -/
def crossed_idx : TimeIndex :=
  ⟨[⟨mk_time "太和" "東晉" 1 0, ⟨"jin.txt", 0, 40⟩⟩]⟩

/-- Fixture index for the regime-query witness: one 劉宋 scope whose era and
year are consistent with the catalogue. -/
def consistent_idx : TimeIndex :=
  ⟨[⟨mk_time "元嘉" "劉宋" 3 5, ⟨"song.txt", 5, 80⟩⟩]⟩

-- ── Helper lemmas ────────────────────────────────────────────────────

theorem checked_sub_u16_of_le {y : Nat} (h : 1 ≤ y) :
    checked_sub_u16 y 1 = some (y - 1) := by
  simp [checked_sub_u16, h]

theorem cn_digit_pos {c : Char} {v : Nat} (h : cn_digit c = some v) :
    1 ≤ v ∧ v ≤ 9 := by
  unfold cn_digit at h
  split at h <;> simp_all <;> omega

theorem cn_digit_ne_ten {c : Char} {v : Nat} (h : cn_digit c = some v) :
    c ≠ '十' := by
  intro he
  subst he
  rw [show cn_digit '十' = none from rfl] at h
  exact Option.noConfusion h

theorem exact_ad_year_eq_find (r e : String) (y : Nat) (h1 : 1 ≤ y) :
    exact_ad_year r e y =
      .ok ((ERA_NAMES.find? (fun en => en.regime.as_chinese == r && en.name == e)).map
        (fun en => en.start_ad + (y - 1))) := by
  unfold exact_ad_year
  cases hf : ERA_NAMES.find? (fun en => en.regime.as_chinese == r && en.name == e) with
  | none => rfl
  | some en =>
    rw [checked_sub_u16_of_le h1]
    rfl

theorem exact_ad_year_none_iff (r e : String) (y : Nat) (h1 : 1 ≤ y) :
    exact_ad_year r e y = .ok none ↔
      ∀ en ∈ ERA_NAMES, ¬(en.regime.as_chinese = r ∧ en.name = e) := by
  rw [exact_ad_year_eq_find r e y h1]
  simp [Option.map_eq_none', List.find?_eq_none]

theorem slice_sound (l : List Char) (n : Nat) (h : parse_cn_number_slice l = some n) :
    CnNumeral l n ∧ l ≠ ['元'] := by
  unfold parse_cn_number_slice at h
  split at h
  · exact ⟨by injection h with h2; rw [← h2]; exact CnNumeral.ten, by decide⟩
  · next _ d =>
    obtain ⟨v, hv, hn⟩ := Option.map_eq_some'.mp h
    exact ⟨hn ▸ CnNumeral.teen d v hv, by simp⟩
  · next _ c hne =>
    refine ⟨CnNumeral.digit c n h, fun he => ?_⟩
    simp only [List.cons.injEq, and_true] at he
    subst he
    rw [show cn_digit '元' = none from rfl] at h
    exact Option.noConfusion h
  · next _ d hne =>
    obtain ⟨v, hv, hn⟩ := Option.map_eq_some'.mp h
    exact ⟨hn ▸ CnNumeral.tens d v hv, by simp⟩
  · next _ d1 d2 =>
    obtain ⟨v1, hv1, h2⟩ := Option.bind_eq_some.mp h
    obtain ⟨v2, hv2, hn⟩ := Option.map_eq_some'.mp h2
    exact ⟨hn ▸ CnNumeral.compound d1 d2 v1 v2 hv1 hv2, by simp⟩
  · exact absurd h (by simp)

theorem slice_complete (l : List Char) (n : Nat) (hcn : CnNumeral l n) (hne : l ≠ ['元']) :
    parse_cn_number_slice l = some n := by
  cases hcn with
  | yuan => exact absurd rfl hne
  | ten => rfl
  | digit c v hd =>
    unfold parse_cn_number_slice
    split
    · next heq => exact absurd (by simpa using heq) (cn_digit_ne_ten hd)
    · next _ d heq => simp at heq
    · next _ c' hne' heq =>
      simp only [List.cons.injEq, and_true] at heq
      subst heq
      exact hd
    · next _ d hne' heq => simp at heq
    · next _ d1 d2 heq => simp at heq
    · next _ _ _ hself _ _ => exact absurd rfl (hself c)
  | teen d v hd =>
    unfold parse_cn_number_slice
    split
    · next heq => simp at heq
    · next _ d' heq =>
      simp only [List.cons.injEq, true_and, and_true] at heq
      rw [← heq]
      simp [hd]
    · next _ c' hne' heq => simp at heq
    · next _ d' hne' heq =>
      simp only [List.cons.injEq, and_true] at heq
      exact absurd heq.1.symm hne'
    · next _ d1 d2 heq => simp at heq
    · next _ _ hself _ _ _ => exact absurd rfl (hself d)
  | tens d v hd =>
    unfold parse_cn_number_slice
    split
    · next heq => simp at heq
    · next _ d' heq =>
      simp only [List.cons.injEq, and_true] at heq
      exact absurd heq.1 (cn_digit_ne_ten hd)
    · next _ c' hne' heq => simp at heq
    · next _ d' hne' heq =>
      simp only [List.cons.injEq, and_true] at heq
      rw [← heq]
      simp [hd]
    · next _ d1 d2 heq => simp at heq
    · next _ _ _ _ hself _ => exact absurd rfl (hself d)
  | compound d1 d2 v1 v2 h1 h2 =>
    unfold parse_cn_number_slice
    split
    · next heq => simp at heq
    · next _ d' heq => simp at heq
    · next _ c' hne' heq => simp at heq
    · next _ d' hne' heq => simp at heq
    · next _ d1' d2' heq =>
      simp only [List.cons.injEq, true_and, and_true] at heq
      obtain ⟨hq1, hq2⟩ := heq
      rw [← hq1, ← hq2]
      simp [h1, h2]
    · next _ _ _ _ _ hself => exact absurd rfl (hself d1 d2)

theorem parse_cn_number_iff (s : String) (n : Nat) :
    parse_cn_number s = some n ↔ CnNumeral s.toList n := by
  unfold parse_cn_number
  split_ifs with hy
  · subst hy
    constructor
    · intro h
      injection h with h2
      rw [← h2]
      exact CnNumeral.yuan
    · intro hcn
      have hcn' : CnNumeral ['元'] n := hcn
      cases hcn' with
      | yuan => rfl
      | digit c v hd =>
        rw [show cn_digit '元' = none from rfl] at hd
        exact Option.noConfusion hd
  · constructor
    · intro h
      exact (slice_sound _ _ h).1
    · intro hcn
      apply slice_complete _ _ hcn
      intro hl
      apply hy
      cases s with
      | mk data =>
        have hd : data = ['元'] := hl
        rw [hd]

theorem cnNumeral_bounds {l : List Char} {n : Nat} (h : CnNumeral l n) :
    1 ≤ n ∧ n ≤ 99 := by
  cases h with
  | yuan => omega
  | ten => omega
  | digit c v hd => have := cn_digit_pos hd; omega
  | teen d v hd => have := cn_digit_pos hd; omega
  | tens d v hd => have := cn_digit_pos hd; omega
  | compound d1 d2 v1 v2 h1 h2 =>
    have := cn_digit_pos h1
    have := cn_digit_pos h2
    omega

-- ── Claim theorems ───────────────────────────────────────────────────

/-- C3: `resolve_era` returns the default regime of the book when a
catalogue entry with the queried name carries that regime; otherwise the
regime of the first entry, in catalogue order, with that name; and it is
`none` exactly when no entry bears the name. Resolution is a pure function
of `(era_name, book)`, so it is deterministic. -/
theorem resolve_era_spec :
    ∀ (era : String) (book : Book),
      ((∃ en ∈ ERA_NAMES, en.name = era ∧ en.regime = default_regime book) →
          resolve_era era book = some (default_regime book))
      ∧ ((¬ ∃ en ∈ ERA_NAMES, en.name = era ∧ en.regime = default_regime book) →
          resolve_era era book =
            (ERA_NAMES.find? (fun en => en.name == era)).map (fun en => en.regime))
      ∧ (resolve_era era book = none ↔ ∀ en ∈ ERA_NAMES, en.name ≠ era) := by
  intro era book
  unfold resolve_era
  cases hf : ERA_NAMES.find? (fun en => en.name == era && en.regime == default_regime book) with
  | some en =>
    have hp := List.find?_some hf
    have hmem := List.mem_of_find?_eq_some hf
    simp only [Bool.and_eq_true, beq_iff_eq] at hp
    refine ⟨fun _ => ?_, fun hno => absurd ⟨en, hmem, hp.1, hp.2⟩ hno, ?_⟩
    · simp [hf, hp.2]
    · simp only [hf]
      exact ⟨fun h => absurd h (by simp), fun hall => absurd hp.1 (hall en hmem)⟩
  | none =>
    have hf' := hf
    rw [List.find?_eq_none] at hf'
    have hnall : ∀ en ∈ ERA_NAMES, ¬(en.name = era ∧ en.regime = default_regime book) := by
      intro en hen
      have := hf' en hen
      simpa [Bool.and_eq_true, beq_iff_eq] using this
    refine ⟨fun ⟨en, hen, h1, h2⟩ => absurd ⟨h1, h2⟩ (hnall en hen), fun _ => ?_, ?_⟩
    · cases hg : ERA_NAMES.find? (fun en => en.name == era) with
      | some en2 => simp [hf, hg]
      | none => simp [hf, hg]
    · cases hg : ERA_NAMES.find? (fun en => en.name == era) with
      | some en2 =>
        have hp2 := List.find?_some hg
        have hmem2 := List.mem_of_find?_eq_some hg
        simp only [beq_iff_eq] at hp2
        simp only [hf, hg]
        exact ⟨fun h => absurd h (by simp), fun hall => absurd hp2 (hall en2 hmem2)⟩
      | none =>
        have hg' := hg
        rw [List.find?_eq_none] at hg'
        simp only [hf, hg]
        exact ⟨fun _ en hen => by simpa using hg' en hen, fun _ => trivial⟩

/-- Witness for C3: 太和 appears in 魏書's default regime 北魏, so it
resolves to 北魏 there. -/
theorem resolve_era_spec_witness :
    resolve_era "太和" Book.WeiShu = some (default_regime Book.WeiShu) :=
  (resolve_era_spec "太和" Book.WeiShu).1
    ⟨⟨"太和", .NorthernWei, 477, 499⟩, by decide, rfl, rfl⟩

/-- C4: for `1 ≤ year ≤ 99`, `exact_ad_year` returns
`start_ad + (year - 1)` of the first catalogue entry matching
`(regime, era_name)` and is absent exactly when no such entry exists; the
four quoted values hold. -/
theorem exact_ad_year_spec :
    (∀ r e y, 1 ≤ y → y ≤ 99 →
       exact_ad_year r e y =
         .ok ((ERA_NAMES.find? (fun en => en.regime.as_chinese == r && en.name == e)).map
           (fun en => en.start_ad + (y - 1)))
       ∧ (exact_ad_year r e y = .ok none ↔
           ∀ en ∈ ERA_NAMES, ¬(en.regime.as_chinese = r ∧ en.name = e)))
    ∧ exact_ad_year "劉宋" "元嘉" 1 = .ok (some 424)
    ∧ exact_ad_year "劉宋" "元嘉" 30 = .ok (some 453)
    ∧ exact_ad_year "北魏" "太和" 1 = .ok (some 477)
    ∧ exact_ad_year "北魏" "太和" 23 = .ok (some 499) := by
  refine ⟨fun r e y h1 h99 => ⟨exact_ad_year_eq_find r e y h1, exact_ad_year_none_iff r e y h1⟩,
    by rfl, by rfl, by rfl, by rfl⟩

/-- Witness for C4: instantiating the universally quantified part at
劉宋/元嘉 year 5 and evaluating the catalogue lookup gives AD 428. -/
theorem exact_ad_year_spec_witness : exact_ad_year "劉宋" "元嘉" 5 = .ok (some 428) := by
  have h := (exact_ad_year_spec.1 "劉宋" "元嘉" 5 (by decide) (by decide)).1
  rw [h]
  rfl

/-- C10: the `u16` subtraction `year - 1` in `exact_ad_year` cannot
underflow when `year ≥ 1` — and every year produced by `parse_cn_number`
is at least 1 — but for `year = 0` with the `(regime, era)` pair present
in the catalogue the subtraction underflows. -/
theorem exact_ad_year_underflow_spec :
    (∀ r e y, 1 ≤ y → ∃ v, exact_ad_year r e y = .ok v)
    ∧ (∀ r e, (∃ en ∈ ERA_NAMES, en.regime.as_chinese = r ∧ en.name = e) →
        exact_ad_year r e 0 = .error ())
    ∧ (∀ s n, parse_cn_number s = some n → 1 ≤ n) := by
  refine ⟨fun r e y h1 => ⟨_, exact_ad_year_eq_find r e y h1⟩, ?_, ?_⟩
  · intro r e ⟨en, hen, hr, hn⟩
    have hsome : (ERA_NAMES.find?
        (fun en => en.regime.as_chinese == r && en.name == e)).isSome := by
      rw [List.find?_isSome]
      exact ⟨en, hen, by simp [hr, hn]⟩
    obtain ⟨en', hf⟩ := Option.isSome_iff_exists.mp hsome
    unfold exact_ad_year
    simp [hf, checked_sub_u16]
  · intro s n h
    exact (cnNumeral_bounds ((parse_cn_number_iff s n).mp h)).1

/-- Witness for C10: 劉宋/元嘉 is in the catalogue, so year 0 underflows. -/
theorem exact_ad_year_underflow_spec_witness :
    exact_ad_year "劉宋" "元嘉" 0 = .error () :=
  exact_ad_year_underflow_spec.2.1 "劉宋" "元嘉"
    ⟨⟨"元嘉", .LiuSong, 424, 453⟩, by decide, rfl, rfl⟩

/-- C5 counterexample: the code accepts 一十 (value 10), which the claimed
grammar (whose D十 form covers only 20–90) maps to nothing, so the claim's
"returns None for every other input string" fails at 一十. -/
theorem parse_cn_number_claim_counterexample :
    parse_cn_number "一十" = some 10 ∧ claimed_cn_number_grammar "一十" = none :=
  ⟨by decide, by decide⟩

/-- C5 amended: `parse_cn_number` accepts exactly the grammar with every
digit position ranging over 一–九 — including 一十 (= 10) and
一十D (= 10 + D) — always yields a value in [1, 99], and satisfies all the
quoted examples. -/
theorem parse_cn_number_spec :
    (∀ (s : String) (n : Nat), parse_cn_number s = some n ↔ CnNumeral s.toList n)
    ∧ (∀ (s : String) (n : Nat), parse_cn_number s = some n → 1 ≤ n ∧ n ≤ 99)
    ∧ parse_cn_number "元" = some 1 ∧ parse_cn_number "一" = some 1
    ∧ parse_cn_number "十" = some 10 ∧ parse_cn_number "十一" = some 11
    ∧ parse_cn_number "二十" = some 20 ∧ parse_cn_number "二十一" = some 21
    ∧ parse_cn_number "九十九" = some 99 ∧ parse_cn_number "百" = none
    ∧ parse_cn_number "一十" = some 10 ∧ parse_cn_number "一十五" = some 15 := by
  refine ⟨parse_cn_number_iff,
    fun s n h => cnNumeral_bounds ((parse_cn_number_iff s n).mp h),
    by decide, by decide, by decide, by decide, by decide, by decide,
    by decide, by decide, by decide, by decide⟩

/-- Witness for C5: the grammar characterization applied at 三十二. -/
theorem parse_cn_number_spec_witness : CnNumeral ("三十二").toList 32 :=
  (parse_cn_number_spec.1 "三十二" 32).mp (by decide)

theorem month_tail_bounds (x : Option Nat) (m : Nat)
    (h : (match x with
          | none => none
          | some m' => if 1 ≤ m' ∧ m' ≤ 12 then some m' else none) = some m) :
    1 ≤ m ∧ m ≤ 12 := by
  cases x with
  | none => exact absurd h (by simp)
  | some m' =>
    simp only at h
    split_ifs at h with hb
    injection h with h3
    omega

/-- C6 counterexample: the claim enumerates only 正/一, 臘 and 閏-prefixed
inputs, sending "every other input" to none — but the code maps the plain
numeral 二 to 2; and for the 閏-prefixed 閏臘 the claim's "base month's
number" is 12 while the code returns none (the stripped base is re-parsed
as a numeral, which 臘 is not). -/
theorem parse_cn_month_claim_counterexample :
    parse_cn_month "二" = some 2 ∧ claimed_parse_cn_month "二" = none ∧
    parse_cn_month "閏臘" = none ∧ claimed_parse_cn_month "閏臘" = some 12 :=
  ⟨by decide, by decide, by decide, by decide⟩

/-- C6 amended: `parse_cn_month` maps 正 and 一 to 1, 臘 to 12 and plain
numerals 一–十二 to 1–12; a 閏 prefix is stripped, a remaining 正 mapped to
一, and the remainder re-parsed as a numeral in [1, 12] — so 閏正 gives 1,
閏十二 gives 12, but 閏臘 gives none; every returned value lies in [1, 12];
every value in [1, 12] is attainable; 十三 and 閏十三 give none. -/
theorem parse_cn_month_spec :
    (∀ (s : String) (m : Nat), parse_cn_month s = some m → 1 ≤ m ∧ m ≤ 12)
    ∧ (∀ m, 1 ≤ m → m ≤ 12 → ∃ s, parse_cn_month s = some m)
    ∧ parse_cn_month "正" = some 1 ∧ parse_cn_month "一" = some 1
    ∧ parse_cn_month "臘" = some 12 ∧ parse_cn_month "二" = some 2
    ∧ parse_cn_month "十二" = some 12 ∧ parse_cn_month "閏正" = some 1
    ∧ parse_cn_month "閏三" = some 3 ∧ parse_cn_month "閏十二" = some 12
    ∧ parse_cn_month "閏臘" = none ∧ parse_cn_month "十三" = none
    ∧ parse_cn_month "閏十三" = none := by
  refine ⟨?_, ?_, by decide, by decide, by decide, by decide, by decide,
    by decide, by decide, by decide, by decide, by decide, by decide⟩
  · intro s m h
    unfold parse_cn_month at h
    split_ifs at h with h1 h2
    · injection h with h3
      omega
    · injection h with h3
      omega
    · exact month_tail_bounds _ m h
  · intro m h1 h12
    interval_cases m
    · exact ⟨"一", by decide⟩
    · exact ⟨"二", by decide⟩
    · exact ⟨"三", by decide⟩
    · exact ⟨"四", by decide⟩
    · exact ⟨"五", by decide⟩
    · exact ⟨"六", by decide⟩
    · exact ⟨"七", by decide⟩
    · exact ⟨"八", by decide⟩
    · exact ⟨"九", by decide⟩
    · exact ⟨"十", by decide⟩
    · exact ⟨"十一", by decide⟩
    · exact ⟨"十二", by decide⟩

/-- Witness for C6: the range bound applied at the concrete input 閏七. -/
theorem parse_cn_month_spec_witness : 1 ≤ 7 ∧ 7 ≤ 12 :=
  parse_cn_month_spec.1 "閏七" 7 (by decide)

set_option maxRecDepth 10000 in
/-- C8: code bug — `build_era_regex` sorts by length and then calls
`Vec::dedup`, which removes only consecutive duplicates; after the stable
by-length sort, equal names (such as the four 建武 entries) are not
adjacent, so nothing is removed: the alternation keeps all 167 names
although only 137 are distinct. The length-descending ordering itself does
hold, with 太平真君 preceding 太平. -/
theorem build_era_regex_duplicates :
    build_era_regex_names.count "建武" = 4
    ∧ build_era_regex_names.length = 167
    ∧ (ERA_NAMES.map (fun e => e.name)).dedup.length = 137
    ∧ sorted_desc_by_len build_era_regex_names = true
    ∧ build_era_regex_names.indexOf "太平真君" < build_era_regex_names.indexOf "太平" := by
  exact ⟨by decide, by decide, by decide, by decide, by decide⟩

theorem find_desc (eo : Nat) :
    ∀ (l : List (Nat × TimeRef)), l.Pairwise (fun a b => b.1 < a.1) →
      (∀ q, l.find? (fun p => decide (p.1 < eo)) = some q →
        q.1 < eo ∧ q ∈ l ∧ ∀ p ∈ l, p.1 < eo → p.1 ≤ q.1)
      ∧ (l.find? (fun p => decide (p.1 < eo)) = none ↔ ∀ p ∈ l, eo ≤ p.1) := by
  intro l
  induction l with
  | nil => simp
  | cons h t ih =>
    intro hpw
    rw [List.pairwise_cons] at hpw
    obtain ⟨hh, ht⟩ := hpw
    have iht := ih ht
    by_cases hlt : h.1 < eo
    · have hf : (h :: t).find? (fun p => decide (p.1 < eo)) = some h :=
        List.find?_cons_of_pos _ (by simpa using hlt)
      constructor
      · intro q hq
        rw [hf] at hq
        injection hq with hq
        subst hq
        refine ⟨hlt, List.mem_cons_self _ _, ?_⟩
        intro p hp _
        rcases List.mem_cons.mp hp with rfl | hp'
        · exact le_refl _
        · exact le_of_lt (hh p hp')
      · rw [hf]
        exact ⟨fun hcon => absurd hcon (by simp),
          fun hall => absurd (hall h (List.mem_cons_self _ _)) (by omega)⟩
    · have hf : (h :: t).find? (fun p => decide (p.1 < eo)) =
          t.find? (fun p => decide (p.1 < eo)) :=
        List.find?_cons_of_neg _ (by simpa using hlt)
      constructor
      · intro q hq
        rw [hf] at hq
        obtain ⟨hq1, hq2, hq3⟩ := iht.1 q hq
        refine ⟨hq1, List.mem_cons_of_mem _ hq2, ?_⟩
        intro p hp hplt
        rcases List.mem_cons.mp hp with rfl | hp'
        · omega
        · exact hq3 p hp' hplt
      · rw [hf, iht.2]
        constructor
        · intro hall p hp
          rcases List.mem_cons.mp hp with rfl | hp'
          · omega
          · exact hall p hp'
        · intro hall p hp
          exact hall p (List.mem_cons_of_mem _ hp)

/-- C1: for time references with strictly increasing byte offsets whose
stored `byte_offset` matches their position (as `extract_times` produces
them), `find_time_context` attaches the reference with the greatest offset
strictly below the event's offset — so the attached time precedes the
event, no other reference lies strictly between them — and returns none
exactly when the event precedes every reference. -/
theorem find_time_context_spec :
    ∀ (times : List (Nat × TimeRef)) (event_offset : Nat),
      times.Pairwise (fun a b => a.1 < b.1) →
      (∀ p ∈ times, p.2.byte_offset = p.1) →
      ((∀ t, find_time_context times event_offset = some t →
          t.byte_offset < event_offset
          ∧ (∃ p ∈ times, p.2 = t)
          ∧ (∀ p ∈ times, p.1 < event_offset → p.1 ≤ t.byte_offset)
          ∧ ¬ ∃ p ∈ times, t.byte_offset < p.1 ∧ p.1 < event_offset)
       ∧ (find_time_context times event_offset = none ↔
            ∀ p ∈ times, event_offset ≤ p.1)) := by
  intro times eo hsorted hoff
  have hrev : times.reverse.Pairwise (fun a b => b.1 < a.1) := by
    rw [List.pairwise_reverse]
    exact hsorted
  have hmain := find_desc eo times.reverse hrev
  constructor
  · intro t ht
    unfold find_time_context at ht
    obtain ⟨q, hq, hqt⟩ := Option.map_eq_some'.mp ht
    obtain ⟨hq1, hq2, hq3⟩ := hmain.1 q hq
    rw [List.mem_reverse] at hq2
    have hqoff : q.2.byte_offset = q.1 := hoff q hq2
    subst hqt
    refine ⟨by omega, ⟨q, hq2, rfl⟩, ?_, ?_⟩
    · intro p hp hplt
      have := hq3 p (List.mem_reverse.mpr hp) hplt
      omega
    · rintro ⟨p, hp, hgt, hlt⟩
      have := hq3 p (List.mem_reverse.mpr hp) hlt
      omega
  · unfold find_time_context
    rw [Option.map_eq_none', hmain.2]
    constructor
    · intro hall p hp
      exact hall p (List.mem_reverse.mpr hp)
    · intro hall p hp
      exact hall p (List.mem_reverse.mp hp)

/-- Witness for C1: an event at offset 5 precedes the only time reference
(at offset 10), so it gets no time. -/
theorem find_time_context_spec_witness :
    find_time_context [(10, mk_time "元嘉" "劉宋" 1 10)] 5 = none :=
  (find_time_context_spec [(10, mk_time "元嘉" "劉宋" 1 10)] 5 (by simp)
    (by simp [mk_time])).2.mpr (by simp)

theorem bts_starts :
    ∀ (times : List (Nat × TimeRef)) (len : Nat) (f : String),
      (build_time_scopes times len f).map (fun s => s.span.byte_start) =
        times.map Prod.fst := by
  intro times len f
  induction times with
  | nil => rfl
  | cons p rest ih =>
    cases rest with
    | nil => simp [build_time_scopes]
    | cons q rest' =>
      exact congrArg (List.cons p.1) ih

/-- C2 counterexample: the claim quantifies over "every content length at
least the last offset"; at content length exactly equal to the last offset
the final scope is empty (`byte_start = byte_end`), violating
`byte_start < byte_end`. (In `scan_file` the content length is always
strictly greater, because each match lies inside the content.) -/
theorem build_time_scopes_eof_counterexample :
    (0 : Nat) ≥ 0
    ∧ build_time_scopes [(0, mk_time "元嘉" "劉宋" 1 0)] 0 "f.txt" =
        [⟨mk_time "元嘉" "劉宋" 1 0, ⟨"f.txt", 0, 0⟩⟩]
    ∧ ∃ s ∈ build_time_scopes [(0, mk_time "元嘉" "劉宋" 1 0)] 0 "f.txt",
        ¬ s.span.byte_start < s.span.byte_end :=
  ⟨le_refl 0, rfl, ⟨_, List.mem_singleton.mpr rfl, by decide⟩⟩

/-- C2 amended: for strictly increasing offsets all strictly below the
content length, the scopes have `byte_start < byte_end`, each ends exactly
where the next starts, the last ends at end-of-file, they are disjoint and
in ascending offset order, and they tile exactly the region from the first
time reference's offset to end-of-file. -/
theorem build_time_scopes_spec :
    ∀ (times : List (Nat × TimeRef)) (content_len : Nat) (f : String),
      times.Pairwise (fun a b => a.1 < b.1) →
      (∀ p ∈ times, p.1 < content_len) →
      ((∀ s ∈ build_time_scopes times content_len f,
          s.span.byte_start < s.span.byte_end)
       ∧ (build_time_scopes times content_len f).Chain'
           (fun a b => a.span.byte_end = b.span.byte_start)
       ∧ (∀ h : build_time_scopes times content_len f ≠ [],
           ((build_time_scopes times content_len f).getLast h).span.byte_end =
             content_len)
       ∧ (build_time_scopes times content_len f).Pairwise
           (fun a b => a.span.byte_end ≤ b.span.byte_start)
       ∧ (build_time_scopes times content_len f).Pairwise
           (fun a b => a.span.byte_start < b.span.byte_start)
       ∧ (∀ x, (∃ s ∈ build_time_scopes times content_len f,
                  s.span.byte_start ≤ x ∧ x < s.span.byte_end) ↔
            ∃ p0, times.head? = some p0 ∧ p0.1 ≤ x ∧ x < content_len)) := by
  intro times len f
  induction times with
  | nil =>
    intro _ _
    refine ⟨?_, ?_, ?_, ?_, ?_, ?_⟩ <;> simp [build_time_scopes]
  | cons p rest ih =>
    intro hsorted hbound
    rw [List.pairwise_cons] at hsorted
    obtain ⟨hp_lt, hsorted'⟩ := hsorted
    have hbound' : ∀ q ∈ rest, q.1 < len :=
      fun q hq => hbound q (List.mem_cons_of_mem _ hq)
    have hplen : p.1 < len := hbound p (List.mem_cons_self _ _)
    cases rest with
    | nil =>
      refine ⟨?_, ?_, fun _ => rfl, ?_, ?_, ?_⟩
      · intro s hs
        simp only [build_time_scopes, List.mem_singleton] at hs
        subst hs
        exact hplen
      · simp [build_time_scopes]
      · simp [build_time_scopes]
      · simp [build_time_scopes]
      · intro x
        constructor
        · rintro ⟨s, hs, h1, h2⟩
          simp only [build_time_scopes, List.mem_singleton] at hs
          subst hs
          exact ⟨p, rfl, h1, h2⟩
        · rintro ⟨p0, hp0, h1, h2⟩
          simp only [List.head?_cons, Option.some.injEq] at hp0
          subst hp0
          exact ⟨⟨p.2, ⟨f, p.1, len⟩⟩, List.mem_singleton.mpr rfl, h1, h2⟩
    | cons q rest' =>
      obtain ⟨ihA, ihB, ihC, ihD, ihD2, ihE⟩ := ih hsorted' hbound'
      have hq_start : ∀ s ∈ build_time_scopes (q :: rest') len f,
          s.span.byte_start ∈ (q :: rest').map Prod.fst := by
        intro s hs
        rw [← bts_starts (q :: rest') len f]
        exact List.mem_map_of_mem _ hs
      have hpq : p.1 < q.1 := hp_lt q (List.mem_cons_self _ _)
      have hqlen : q.1 < len := hbound' q (List.mem_cons_self _ _)
      refine ⟨?_, ?_, ?_, ?_, ?_, ?_⟩
      · intro s hs
        rcases List.mem_cons.mp hs with rfl | hs'
        · exact hpq
        · exact ihA s hs'
      · refine List.chain'_cons'.mpr ⟨?_, ihB⟩
        intro b hb
        cases rest' with
        | nil =>
          simp only [build_time_scopes, List.head?_cons, Option.mem_def,
            Option.some.injEq] at hb
          subst hb
          rfl
        | cons r rest'' =>
          simp only [build_time_scopes, List.head?_cons, Option.mem_def,
            Option.some.injEq] at hb
          subst hb
          rfl
      · intro h
        have hT : build_time_scopes (q :: rest') len f ≠ [] := by
          cases rest' <;> simp [build_time_scopes]
        simp only [show build_time_scopes (p :: q :: rest') len f =
          ⟨p.2, ⟨f, p.1, q.1⟩⟩ :: build_time_scopes (q :: rest') len f from rfl]
        rw [List.getLast_cons hT]
        exact ihC hT
      · refine List.pairwise_cons.mpr ⟨?_, ihD⟩
        intro s hs
        obtain ⟨p', hp', heq⟩ := List.mem_map.mp (hq_start s hs)
        show q.1 ≤ s.span.byte_start
        rcases List.mem_cons.mp hp' with rfl | hp''
        · omega
        · have := (List.pairwise_cons.mp hsorted').1 p' hp''
          omega
      · refine List.pairwise_cons.mpr ⟨?_, ihD2⟩
        intro s hs
        obtain ⟨p', hp', heq⟩ := List.mem_map.mp (hq_start s hs)
        show p.1 < s.span.byte_start
        have := hp_lt p' hp'
        omega
      · intro x
        constructor
        · rintro ⟨s, hs, hx1, hx2⟩
          rcases List.mem_cons.mp hs with rfl | hs'
          · have hx2' : x < q.1 := hx2
            exact ⟨p, rfl, hx1, by omega⟩
          · obtain ⟨p0, hp0, h1, h2⟩ := (ihE x).mp ⟨s, hs', hx1, hx2⟩
            simp only [List.head?_cons, Option.some.injEq] at hp0
            subst hp0
            exact ⟨p, rfl, by omega, h2⟩
        · rintro ⟨p0, hp0, h1, h2⟩
          simp only [List.head?_cons, Option.some.injEq] at hp0
          subst hp0
          by_cases hx : x < q.1
          · exact ⟨⟨p.2, ⟨f, p.1, q.1⟩⟩, List.mem_cons_self _ _, h1, hx⟩
          · obtain ⟨s, hs, hx1, hx2⟩ := (ihE x).mpr ⟨q, rfl, by omega, h2⟩
            exact ⟨s, List.mem_cons_of_mem _ hs, hx1, hx2⟩

/-- Witness for C2: with references at offsets 10 and 50 in a 100-byte
file, position 75 is covered by a scope. -/
theorem build_time_scopes_spec_witness :
    ∃ s ∈ build_time_scopes
        [(10, mk_time "元嘉" "劉宋" 1 10), (50, mk_time "元嘉" "劉宋" 5 50)] 100 "w.txt",
      s.span.byte_start ≤ 75 ∧ 75 < s.span.byte_end := by
  have h := (build_time_scopes_spec
      [(10, mk_time "元嘉" "劉宋" 1 10), (50, mk_time "元嘉" "劉宋" 5 50)] 100 "w.txt"
      (by simp [List.pairwise_cons]) (by simp)).2.2.2.2.2 75
  exact h.mpr ⟨(10, mk_time "元嘉" "劉宋" 1 10), rfl, by norm_num, by norm_num⟩

theorem filter_event_person (lf : String → Nat) (e : Event) :
    (filter_event_locations lf e).person_name = e.person_name := by
  obtain ⟨kind, time, sf, bo, ctx, locs⟩ := e
  cases kind with
  | Appointment person title place =>
    cases place with
    | none => rfl
    | some pl =>
      unfold filter_event_locations Event.person_name
      dsimp only
      split_ifs <;> rfl
  | Promotion person verb title place =>
    cases place with
    | none => rfl
    | some pl =>
      unfold filter_event_locations Event.person_name
      dsimp only
      split_ifs <;> rfl
  | Accession person verb => rfl
  | Battle person verb target place =>
    cases place with
    | none => rfl
    | some pl =>
      unfold filter_event_locations Event.person_name
      dsimp only
      split_ifs <;> rfl
  | Death person verb => rfl

theorem filter_event_locs (lf : String → Nat) (e : Event) :
    (filter_event_locations lf e).locations =
      e.locations.filter (fun l => decide (2 ≤ lf l.name)) := rfl

theorem filter_event_place (lf : String → Nat) (e : Event) (p : PlaceRef)
    (hp : (filter_event_locations lf e).structured_place = some p) :
    2 ≤ lf p.name := by
  obtain ⟨kind, time, sf, bo, ctx, locs⟩ := e
  cases kind with
  | Appointment person title place =>
    cases place with
    | none => exact absurd hp (by simp [filter_event_locations, Event.structured_place])
    | some pl =>
      unfold filter_event_locations Event.structured_place at hp
      dsimp only at hp
      split_ifs at hp with hlt
      all_goals try (injection hp with hp)
      all_goals try subst hp
      all_goals omega
  | Promotion person verb title place =>
    cases place with
    | none => exact absurd hp (by simp [filter_event_locations, Event.structured_place])
    | some pl =>
      unfold filter_event_locations Event.structured_place at hp
      dsimp only at hp
      split_ifs at hp with hlt
      all_goals try (injection hp with hp)
      all_goals try subst hp
      all_goals omega
  | Accession person verb =>
    exact absurd hp (by simp [filter_event_locations, Event.structured_place])
  | Battle person verb target place =>
    cases place with
    | none => exact absurd hp (by simp [filter_event_locations, Event.structured_place])
    | some pl =>
      unfold filter_event_locations Event.structured_place at hp
      dsimp only at hp
      split_ifs at hp with hlt
      all_goals try (injection hp with hp)
      all_goals try subst hp
      all_goals omega
  | Death person verb =>
    exact absurd hp (by simp [filter_event_locations, Event.structured_place])

theorem split_loop_eq (pf lf : String → Nat) :
    ∀ l : List Event,
      split_loop pf lf l =
        ((l.filter (fun e => decide (2 ≤ pf e.person_name))).map
           (filter_event_locations lf),
         l.filter (fun e => decide (pf e.person_name < 2))) := by
  intro l
  induction l with
  | nil => rfl
  | cons e rest ih =>
    unfold split_loop
    rw [ih]
    by_cases hp : 2 ≤ pf e.person_name
    · have h2 : ¬(pf e.person_name < 2) := by omega
      simp [hp, h2, List.filter_cons]
    · have h2 : pf e.person_name < 2 := by omega
      simp [hp, h2, List.filter_cons]

/-- C7: the `run_extract` split places an event in the high-confidence list
iff its person occurs in at least two events of the corpus; every other
event goes, unmodified, to the unstructured list; and in every
high-confidence event each retained context location has corpus frequency
at least 2 while a surviving structured place field does too (one with
frequency below 2 has been cleared). -/
theorem split_events_spec :
    ∀ events : List Event,
      (split_events events).2 =
        events.filter (fun e => decide (person_freq events e.person_name < 2))
      ∧ (split_events events).1 =
          (events.filter (fun e => decide (2 ≤ person_freq events e.person_name))).map
            (filter_event_locations (location_freq events))
      ∧ (∀ e ∈ (split_events events).1,
          2 ≤ person_freq events e.person_name
          ∧ (∀ l ∈ e.locations, 2 ≤ location_freq events l.name)
          ∧ (∀ p, e.structured_place = some p → 2 ≤ location_freq events p.name)) := by
  intro events
  have hsplit := split_loop_eq (person_freq events) (location_freq events) events
  refine ⟨by rw [split_events, hsplit], by rw [split_events, hsplit], ?_⟩
  intro e he
  rw [split_events, hsplit] at he
  simp only at he
  obtain ⟨e0, he0, rfl⟩ := List.mem_map.mp he
  have he0f := List.mem_filter.mp he0
  refine ⟨?_, ?_, ?_⟩
  · rw [filter_event_person]
    simpa using he0f.2
  · intro l hl
    rw [filter_event_locs] at hl
    simpa using (List.mem_filter.mp hl).2
  · intro p hp
    exact filter_event_place _ _ _ hp

/-- Witness for C7: in the sample corpus 王進 appears in two events, so
their shared location 荊州 is counted at least twice. -/
theorem split_events_spec_witness : 2 ≤ location_freq sample_events "荊州" := by
  have h := (split_events_spec sample_events).2.2
  have hmem : mk_death_event "王進" "a.txt" 10 [⟨"荊州", false, some "刺史"⟩] ∈
      (split_events sample_events).1 := by decide
  have := (h _ hmem).2.1 ⟨"荊州", false, some "刺史"⟩ (by decide)
  simpa using this

/-- C9 counterexample: `query` ignores the regime, so for the index holding
one 東晉/太和 scope the union over the 北魏 catalogue entries (太和 at year
1) contains the scope, while `query_regime("北魏")` does not — the claimed
equality fails for this TimeIndex. -/
theorem query_regime_union_counterexample :
    regime_union_mem crossed_idx .NorthernWei
        ⟨mk_time "太和" "東晉" 1 0, ⟨"jin.txt", 0, 40⟩⟩
    ∧ ⟨mk_time "太和" "東晉" 1 0, ⟨"jin.txt", 0, 40⟩⟩ ∉
        crossed_idx.query_regime (Regime.NorthernWei.as_chinese) := by
  constructor
  · exact ⟨⟨"太和", .NorthernWei, 477, 499⟩, by decide, rfl, 1,
      by decide, by decide, by decide⟩
  · decide

/-- C9 amended: if every scope of regime `r` carries an era name and year
lying within one of `r`'s catalogue entries' spans, and no scope of another
regime carries an era name that also belongs to `r` in the catalogue, then
`query_regime(r)` equals (as a set) the union over `r`'s catalogue entries
and their in-span years of the single queries. -/
theorem query_regime_union_spec :
    ∀ (idx : TimeIndex) (r : Regime),
      (∀ s ∈ idx.scopes,
        (s.time.regime = r.as_chinese →
          ∃ en ∈ ERA_NAMES, en.regime = r ∧ en.name = s.time.era ∧
            1 ≤ s.time.year ∧ s.time.year ≤ en.end_ad - en.start_ad + 1)
        ∧ (s.time.regime ≠ r.as_chinese →
          ∀ en ∈ ERA_NAMES, en.regime = r → en.name ≠ s.time.era)) →
      ∀ s, s ∈ idx.query_regime r.as_chinese ↔ regime_union_mem idx r s := by
  intro idx r hcons s
  constructor
  · intro hs
    have hs' := List.mem_filter.mp hs
    have hreg : s.time.regime = r.as_chinese := by simpa using hs'.2
    obtain ⟨en, hen, her, hname, hy1, hy2⟩ := (hcons s hs'.1).1 hreg
    refine ⟨en, hen, her, s.time.year, hy1, hy2, ?_⟩
    refine List.mem_filter.mpr ⟨hs'.1, ?_⟩
    simp [hname]
  · rintro ⟨en, hen, her, y, hy1, hy2, hsq⟩
    have hsq' := List.mem_filter.mp hsq
    have hera : s.time.era = en.name := by
      have := hsq'.2
      simp only [Bool.and_eq_true, beq_iff_eq] at this
      exact this.1
    refine List.mem_filter.mpr ⟨hsq'.1, ?_⟩
    by_cases hreg : s.time.regime = r.as_chinese
    · simpa using hreg
    · exact absurd hera.symm ((hcons s hsq'.1).2 hreg en hen her)

/-- Witness for C9: a catalogue-consistent one-scope index (劉宋/元嘉 year
3), where the equivalence puts the scope in the union. -/
theorem query_regime_union_spec_witness :
    regime_union_mem consistent_idx .LiuSong
      ⟨mk_time "元嘉" "劉宋" 3 5, ⟨"song.txt", 5, 80⟩⟩ :=
  (query_regime_union_spec consistent_idx .LiuSong (by decide)
    ⟨mk_time "元嘉" "劉宋" 3 5, ⟨"song.txt", 5, 80⟩⟩).mp (by decide)

end NaiveText
